import Mathlib

/-
Verification development for the semantic pattern-graph core of the
parflow repository (directory src/semantic-compiler).

The definitions below are a shallow embedding of the Rust source files
  src/semantic-compiler/src/semantic_graph.rs
  src/semantic-compiler/src/pattern_recognizer.rs
  src/semantic-compiler/src/cross_language_patterns.rs
Machine integers (u64) are modelled as Nat: none of the embedded code
performs arithmetic that can overflow (the only arithmetic is `hash % 7`
and discriminant casts, both overflow-free), so no explicit modular
reduction is needed.  Rust HashMap values are modelled as association
lists together with a first-match lookup; HashMap iteration order is
modelled as the association-list order (the theorems proved below do
not depend on a particular order beyond what the source guarantees).
Recursive traversals of the possibly-cyclic children graph are modelled
with an explicit fuel parameter; the chosen default fuel is strictly
larger than the deepest call chain the source traversal can make, so
the exhaustion branch is unreachable for the default fuel (the tests
and lemmas below never rely on the exhaustion value).
-/

/-- Pattern kinds, mirroring enum PatternType in semantic_graph.rs
(declaration order matters: it fixes the numeric discriminants). -/
inductive PatternType where
  | FibonacciLike
  | MapReduce
  | Builder
  | IteratorChain
  | RecursiveTree
  | Cacheable
  | DataProcessor
  | WebEndpoint
  | DatabaseQuery
deriving DecidableEq, Repr

/-- Numeric code of a pattern, mirroring the Rust cast `pattern as u64`
(the discriminant in declaration order). -/
def patternCode : PatternType → Nat
  | .FibonacciLike => 0
  | .MapReduce => 1
  | .Builder => 2
  | .IteratorChain => 3
  | .RecursiveTree => 4
  | .Cacheable => 5
  | .DataProcessor => 6
  | .WebEndpoint => 7
  | .DatabaseQuery => 8

/-- Node kinds, mirroring enum NodeType in semantic_graph.rs. -/
inductive NodeType where
  | Function
  | Variable
  | ControlFlow
  | Arithmetic
  | Comparison
  | Loop
  | Pattern (pt : PatternType)
deriving DecidableEq, Repr

/-- A semantic node, mirroring struct SemanticNode in semantic_graph.rs.
The metadata HashMap is modelled as an association list. -/
structure SemanticNode where
  id : Nat
  node_type : NodeType
  children : List Nat
  metadata : List (String × String)
  language : String
  pattern_hash : Nat
deriving DecidableEq, Repr

/-- The nodes HashMap of a graph, modelled as an association list from
node id to node. -/
abbrev NodeMap := List (Nat × SemanticNode)

/-- A semantic graph, mirroring struct SemanticGraph in
semantic_graph.rs.  pattern_cache maps a numeric pattern code to the
bucket of node ids classified under that code. -/
structure SemanticGraph where
  nodes : NodeMap
  root_nodes : List Nat
  pattern_cache : List (Nat × List Nat)
  language : String
deriving DecidableEq, Repr

/-- HashMap lookup `self.nodes.get(&id)`: first entry with the given key. -/
def getNode (ns : NodeMap) (id : Nat) : Option SemanticNode :=
  (ns.find? (fun p => p.1 == id)).map Prod.snd

/-- The HashMap invariant of the nodes table: keys are pairwise distinct. -/
def keysNodup (g : SemanticGraph) : Prop := (g.nodes.map Prod.fst).Nodup

instance (g : SemanticGraph) : Decidable (keysNodup g) :=
  inferInstanceAs (Decidable ((g.nodes.map Prod.fst).Nodup))

/-- HashMap lookup `metadata.get(key)`. -/
def lookupMeta (md : List (String × String)) (k : String) : Option String :=
  (md.find? (fun p => p.1 == k)).map Prod.snd

/-- Total number of child references stored in the nodes table. -/
def childrenCount (ns : NodeMap) : Nat :=
  ns.foldr (fun p acc => p.2.children.length + acc) 0

/-- Fuel that strictly dominates the depth of any call chain of
has_recursive_structure: every nested call except the outermost pushes
a previously unvisited id onto the visited list, and every pushed id
except possibly the starting one occurs in some children list, so the
nesting depth never exceeds childrenCount ns + 2. -/
def recFuel (ns : NodeMap) : Nat := childrenCount ns + 2

/-- Fueled embedding of fn has_recursive_structure in semantic_graph.rs.
It returns the result together with the final visited list, because the
source threads one `&mut Vec` through the whole traversal (growing it
across sibling subtrees and never popping).  The source loop
`for child { if rec(child, visited) { return true } }` is the
short-circuiting left fold below.  The fuel-exhaustion branch is
unreachable for fuel = recFuel ns and visited = []. -/
def hasRecAux (ns : NodeMap) : Nat → Nat → List Nat → Bool × List Nat
  | 0, _, visited => (true, visited)
  | f + 1, node_id, visited =>
    if node_id ∈ visited then (true, visited)
    else
      let visited1 := visited ++ [node_id]
      match getNode ns node_id with
      | none => (false, visited1)
      | some n =>
        n.children.foldl
          (fun acc c => if acc.1 then acc else hasRecAux ns f c acc.2)
          (false, visited1)

/-- Embedding of `self.has_recursive_structure(id, &mut vec![])` as it
is called from analyze_node_pattern: defaulted fuel, empty visited. -/
def has_recursive_structure (ns : NodeMap) (id : Nat) : Bool :=
  (hasRecAux ns (recFuel ns) id []).1

/-- Embedding of fn analyze_node_pattern in semantic_graph.rs.  A
Function node with fewer than 2 children and a ControlFlow node with at
most 3 children fail the corresponding match guards and fall through to
the wildcard arm. -/
def analyze_node_pattern (ns : NodeMap) (node : SemanticNode) : Option PatternType :=
  match node.node_type with
  | .Function =>
    if 2 ≤ node.children.length then
      if has_recursive_structure ns node.id then some .FibonacciLike
      else if lookupMeta node.metadata "operation" = some "map_reduce" then some .MapReduce
      else none
    else none
  | .ControlFlow => if 3 < node.children.length then some .MapReduce else none
  | .Pattern pt => some pt
  | _ => none

/-- Embedding of `self.pattern_cache.entry(code).or_insert_with(Vec::new).push(id)`:
append id to the bucket of the first entry carrying the code, or create
the bucket if the code has no entry yet. -/
def cachePush (cache : List (Nat × List Nat)) (code : Nat) (id : Nat) :
    List (Nat × List Nat) :=
  match cache with
  | [] => [(code, [id])]
  | (k, l) :: rest =>
    if k = code then (k, l ++ [id]) :: rest else (k, l) :: cachePush rest code id

/-- Loop body of fn detect_patterns: look the snapshot id up in the
nodes table, classify the node, and on success push the id into the
bucket of the numeric pattern code. -/
def detectStep (ns : NodeMap) (cache : List (Nat × List Nat)) (node_id : Nat) :
    List (Nat × List Nat) :=
  match getNode ns node_id with
  | some node =>
    match analyze_node_pattern ns node with
    | some pattern => cachePush cache (patternCode pattern) node_id
    | none => cache
  | none => cache

/-- Embedding of fn detect_patterns in semantic_graph.rs: snapshot the
key set of the nodes table, then run detectStep over it, accumulating
into the existing pattern_cache.  The nodes table itself is left
untouched. -/
def detect_patterns (g : SemanticGraph) : SemanticGraph :=
  { g with
    pattern_cache := (g.nodes.map Prod.fst).foldl (detectStep g.nodes) g.pattern_cache }

/-- HashMap lookup into the pattern cache. -/
def lookupCache (cache : List (Nat × List Nat)) (code : Nat) : Option (List Nat) :=
  (cache.find? (fun p => p.1 == code)).map Prod.snd

/-- The bucket stored under a code (empty when the code is absent). -/
def bucket (cache : List (Nat × List Nat)) (code : Nat) : List Nat :=
  (lookupCache cache code).getD []

/-- The classification detect_patterns computes for the id of a node
table entry, already projected to the numeric code pushed into the
cache. -/
def classifyCode (ns : NodeMap) (id : Nat) : Option Nat :=
  (getNode ns id).bind fun n => (analyze_node_pattern ns n).map patternCode

/-- Embedding of fn get_optimal_language in cross_language_patterns.rs
(impl CrossLanguageAnalyzer). -/
def get_optimal_language (pattern : PatternType) : Option String :=
  match pattern with
  | .FibonacciLike => some "rust"
  | .MapReduce => some "python"
  | .IteratorChain => some "rust"
  | .WebEndpoint => some "typescript"
  | .DatabaseQuery => some "rust"
  | .DataProcessor => some "python"
  | _ => none

/-- Multiplicity of an id inside the bucket a code maps to. -/
def bucketCount (g : SemanticGraph) (code : Nat) (i : Nat) : Nat :=
  List.count i (bucket g.pattern_cache code)

/-- Reachability along stored children through nodes present in the
table: the end point may be a dangling id, every intermediate source is
a present node. -/
inductive Reach (ns : NodeMap) : Nat → Nat → Prop where
  | refl (a : Nat) : Reach ns a a
  | step {a b c : Nat} {n : SemanticNode} (h : getNode ns a = some n)
      (hc : c ∈ n.children) (hr : Reach ns c b) : Reach ns a b

/-- Some node reachable from the start lists the start among its
children: the children of the start eventually reference the start
itself, through ids present in the table. -/
def CycleThrough (ns : NodeMap) (s : Nat) : Prop :=
  ∃ y n, Reach ns s y ∧ getNode ns y = some n ∧ s ∈ n.children

/-- A cycle goes through the given node. -/
def CycleAt (ns : NodeMap) (y : Nat) : Prop :=
  ∃ n c, getNode ns y = some n ∧ c ∈ n.children ∧ Reach ns c y

/-- Reachability from some declared root of the graph. -/
def ReachFromRoots (g : SemanticGraph) (i : Nat) : Prop :=
  ∃ r, r ∈ g.root_nodes ∧ Reach g.nodes r i

/-- The children graph reachable from the start is strictly acyclic,
stated as a topological rank certificate: every stored child edge of a
reachable present node strictly decreases the rank.  On the finite
graphs at hand this is the standard equivalent of the absence of a
reachable cycle. -/
def AcyclicFrom (ns : NodeMap) (s : Nat) : Prop :=
  ∃ rk : Nat → Nat, ∀ i, Reach ns s i →
    ∀ n, getNode ns i = some n → ∀ c ∈ n.children, rk c < rk i

/-- The children graph reachable from the declared roots is strictly
acyclic, again as a rank certificate. -/
def AcyclicFromRoots (g : SemanticGraph) : Prop :=
  ∃ rk : Nat → Nat, ∀ i, ReachFromRoots g i →
    ∀ n, getNode g.nodes i = some n → ∀ c ∈ n.children, rk c < rk i

/-- Appends two optional lists, propagating absence. -/
def optAppend (x y : Option (List Nat)) : Option (List Nat) :=
  x.bind fun l => y.map fun l2 => l ++ l2

/-- Complete preorder unfolding of the children graph below an id, with
fuel: some l exactly when the whole unfolding (dangling ids included as
leaves) fits in the given recursion depth, l listing every visited id
in visit order with multiplicity.  This is the specification-side view
of the traversal order shared by has_recursive_structure and
hash_node_tree; it completes for some fuel exactly when no cycle is
reachable. -/
def preorderWalk (ns : NodeMap) : Nat → Nat → Option (List Nat)
  | 0, _ => none
  | f + 1, id =>
    match getNode ns id with
    | none => some [id]
    | some n =>
      (n.children.foldr (fun c acc => optAppend (preorderWalk ns f c) acc)
        (some [])).map (fun l => id :: l)

/-- Sequencing of the preorder walks of a child list, named for reuse
in lemma statements (definitionally the fold inside preorderWalk). -/
def walkFold (ns : NodeMap) (f : Nat) (cs : List Nat) : Option (List Nat) :=
  cs.foldr (fun c acc => optAppend (preorderWalk ns f c) acc) (some [])

/-- Fueled embedding of fn hash_node_tree in semantic_graph.rs,
returning the sequence of pattern_hash values the traversal feeds to
the hasher (the source feeds the little-endian bytes of exactly these
values, in exactly this order): the present node contributes its
pattern_hash, then its children subtrees in stored order; a dangling id
contributes nothing.  none models a recursion that exceeds the fuel,
which for every acyclic reachable subgraph some fuel avoids; the
source recursion has no cycle guard and does not terminate on a
reachable cycle. -/
def hash_node_tree (ns : NodeMap) : Nat → Nat → Option (List Nat)
  | 0, _ => none
  | f + 1, id =>
    match getNode ns id with
    | none => some []
    | some n =>
      (n.children.foldr (fun c acc => optAppend (hash_node_tree ns f c) acc)
        (some [])).map (fun l => n.pattern_hash :: l)

/-- Sequencing of the subtree walks of a child list, named for reuse in
lemma statements (definitionally the fold inside hash_node_tree). -/
def hashFold (ns : NodeMap) (f : Nat) (cs : List Nat) : Option (List Nat) :=
  cs.foldr (fun c acc => optAppend (hash_node_tree ns f c) acc) (some [])

/-- Little-endian byte decomposition of a u64, as `to_le_bytes`. -/
def le8 (n : Nat) : List Nat :=
  [n % 256, n / 256 % 256, n / 65536 % 256, n / 16777216 % 256,
   n / 4294967296 % 256, n / 1099511627776 % 256,
   n / 281474976710656 % 256, n / 72057594037927936 % 256]

/-- Byte view of a string fed to the hasher, modelled as the sequence
of character codes. -/
def strBytes (s : String) : List Nat := s.toList.map (fun ch => ch.toNat)

/-- Modelled from the spec: the blake3 crate used by
calculate_semantic_hash is an external dependency, required by the spec
only to be a strong deterministic digest of the concatenated update
byte stream, truncated to a little-endian u64.  It is modelled as a
fixed deterministic fold over that byte stream; every theorem below
depends only on this determinism. -/
def blake3Finalize (bytes : List Nat) : Nat :=
  bytes.foldl (fun acc b => (acc * 1099511628211 + b) % 18446744073709551616)
    14695981039346656037

/-- Byte contribution of one root in calculate_semantic_hash: a root
missing from the table contributes nothing; a present root contributes
its id bytes, its language bytes, and the bytes of the pattern_hash
sequence of its subtree walk. -/
def rootBytes (ns : NodeMap) (f : Nat) (r : Nat) : Option (List Nat) :=
  match getNode ns r with
  | none => some []
  | some n =>
    (hash_node_tree ns f r).map fun ws =>
      le8 n.id ++ strBytes n.language ++ (ws.map le8).flatten

/-- Sequencing of the per-root byte contributions, named for reuse in
lemma statements (definitionally the fold inside
calculate_semantic_hash). -/
def rootsFold (ns : NodeMap) (f : Nat) (roots : List Nat) : Option (List Nat) :=
  roots.foldr (fun r acc => optAppend (rootBytes ns f r) acc) (some [])

/-- Fueled embedding of fn calculate_semantic_hash in
semantic_graph.rs: accumulate the per-root byte contributions in root
order and finalize.  none models the nonterminating recursion of the
unguarded subtree walk. -/
def calculate_semantic_hash (g : SemanticGraph) (f : Nat) : Option Nat :=
  (g.root_nodes.foldr (fun r acc => optAppend (rootBytes g.nodes f r) acc)
    (some [])).map blake3Finalize

/-- Exactly the data the semantic hash is claimed to depend on: the
root id sequence in order and, for each resolvable root, the node id
field, the node language tag, and the pattern_hash sequence of the
subtree walk. -/
def hashRelevantData (g : SemanticGraph) (f : Nat) :
    List (Option (Nat × String × Option (List Nat))) :=
  g.root_nodes.map fun r =>
    (getNode g.nodes r).map fun n => (n.id, n.language, hash_node_tree g.nodes f r)

/-- Byte contribution of one root, recomputed from the hash-relevant
data alone. -/
def encodeRootData : Option (Nat × String × Option (List Nat)) → Option (List Nat)
  | none => some []
  | some (i, lang, w) =>
    w.map fun ws => le8 i ++ strBytes lang ++ (ws.map le8).flatten

/-- Tokens fed to a std Hasher, for the manual Hash impl of
SemanticNode. -/
inductive HTok where
  | natTok (n : Nat)
  | strTok (s : String)
deriving DecidableEq, Repr

/-- Token contribution of a NodeType under the derived Hash impl:
discriminant, then payload. -/
def nodeTypeToks : NodeType → List HTok
  | .Function => [.natTok 0]
  | .Variable => [.natTok 1]
  | .ControlFlow => [.natTok 2]
  | .Arithmetic => [.natTok 3]
  | .Comparison => [.natTok 4]
  | .Loop => [.natTok 5]
  | .Pattern pt => [.natTok 6, .natTok (patternCode pt)]

/-- Key order used by `sorted_metadata.sort_by_key(|(k, _)| *k)`. -/
def metaLE (a b : String × String) : Prop := a.1 ≤ b.1

instance : DecidableRel metaLE := fun a b =>
  inferInstanceAs (Decidable (a.1 ≤ b.1))

instance : IsTotal (String × String) metaLE := ⟨fun a b => le_total a.1 b.1⟩

instance : IsTrans (String × String) metaLE :=
  ⟨fun _ _ _ h1 h2 => le_trans h1 h2⟩

/-- Stable sort of the metadata entries by key, modelling
`sort_by_key` (the source sort is stable; under the HashMap invariant
of pairwise distinct keys any stable sort by key gives this result). -/
def sortMeta (md : List (String × String)) : List (String × String) :=
  List.insertionSort metaLE md

/-- Token stream of the manual `impl Hash for SemanticNode`: id, node
type, children (a Vec hashes its length, then its elements), the
metadata entries sorted by key (key then value for each), language,
pattern_hash. -/
def nodeHashTrace (n : SemanticNode) : List HTok :=
  [.natTok n.id] ++ nodeTypeToks n.node_type
    ++ ([HTok.natTok n.children.length] ++ n.children.map HTok.natTok)
    ++ (sortMeta n.metadata).foldr
        (fun kv acc => HTok.strTok kv.1 :: HTok.strTok kv.2 :: acc) []
    ++ [HTok.strTok n.language, HTok.natTok n.pattern_hash]

/-- Match record emitted by the recognizer, mirroring struct
CrossLanguagePattern in pattern_recognizer.rs (the semantic_hash field
carries the fueled hash). -/
structure CrossLanguagePattern where
  pattern_type : PatternType
  language : String
  node_count : Nat
  semantic_hash : Option Nat
deriving DecidableEq, Repr

/-- The recognizer and its static registry, mirroring struct
PatternRecognizer in pattern_recognizer.rs. -/
structure PatternRecognizer where
  patterns : List (String × List PatternType)

/-- Embedding of PatternRecognizer::new. -/
def PatternRecognizer.new : PatternRecognizer :=
  ⟨[("rust", [.IteratorChain, .Builder, .FibonacciLike]),
    ("python", [.MapReduce, .DataProcessor, .RecursiveTree]),
    ("javascript", [.WebEndpoint, .MapReduce, .Cacheable])]⟩

/-- Registry lookup `self.patterns.get(language)`. -/
def lookupPatterns (r : PatternRecognizer) (lang : String) : Option (List PatternType) :=
  (r.patterns.find? (fun p => p.1 == lang)).map Prod.snd

/-- Embedding of fn hash_to_pattern in pattern_recognizer.rs: decode a
numeric bucket code modulo 7 against a fixed ordering. -/
def hash_to_pattern (hash : Nat) : PatternType :=
  match hash % 7 with
  | 0 => .FibonacciLike
  | 1 => .MapReduce
  | 2 => .IteratorChain
  | 3 => .Builder
  | 4 => .RecursiveTree
  | 5 => .WebEndpoint
  | _ => .Cacheable

/-- Handling of one pattern_cache entry inside
recognize_cross_language_patterns: decode the code, and emit a match
record when the decoded kind is in the list registered for the graph
language. -/
def recognizeEntry (r : PatternRecognizer) (g : SemanticGraph) (f : Nat)
    (e : Nat × List Nat) : List CrossLanguagePattern :=
  match lookupPatterns r g.language with
  | none => []
  | some supported =>
    if hash_to_pattern e.1 ∈ supported then
      [{ pattern_type := hash_to_pattern e.1, language := g.language,
         node_count := e.2.length, semantic_hash := calculate_semantic_hash g f }]
    else []

/-- Embedding of fn recognize_cross_language_patterns in
pattern_recognizer.rs: skip graphs whose language is unregistered, then
process every pattern_cache entry. -/
def recognize_cross_language_patterns (r : PatternRecognizer) (f : Nat)
    (graphs : List SemanticGraph) : List CrossLanguagePattern :=
  graphs.flatMap fun g =>
    match lookupPatterns r g.language with
    | none => []
    | some _ => g.pattern_cache.flatMap (recognizeEntry r g f)

/-- Shorthand node constructor for the concrete test graphs. -/
def mkNode (id : Nat) (t : NodeType) (children : List Nat)
    (md : List (String × String)) (lang : String) (ph : Nat) : SemanticNode :=
  { id := id, node_type := t, children := children, metadata := md,
    language := lang, pattern_hash := ph }

/-- A strictly acyclic diamond: 1 is a two-child Function node, 2 and 3
both reference the shared leaf 4. -/
def gDiamond : SemanticGraph :=
  { nodes := [(1, mkNode 1 .Function [2, 3] [] "rust" 11),
              (2, mkNode 2 .Variable [4] [] "rust" 12),
              (3, mkNode 3 .Variable [4] [] "rust" 13),
              (4, mkNode 4 .Variable [] [] "rust" 14)],
    root_nodes := [1], pattern_cache := [], language := "rust" }

/-- The end-to-end scenario graph of the spec, literally: python, a
Function node 1 with the single child reference [2], and node 2
referencing node 1 back. -/
def gScenario : SemanticGraph :=
  { nodes := [(1, mkNode 1 .Function [2] [] "python" 1),
              (2, mkNode 2 .Variable [1] [] "python" 2)],
    root_nodes := [1], pattern_cache := [], language := "python" }

/-- The end-to-end scenario graph with the minimal repair: node 1 holds
two child references so that the Function guard is met. -/
def gScenario2 : SemanticGraph :=
  { nodes := [(1, mkNode 1 .Function [2, 2] [] "python" 1),
              (2, mkNode 2 .Variable [1] [] "python" 2)],
    root_nodes := [1], pattern_cache := [], language := "python" }

/-- The ControlFlow scenario graph: rust, a single ControlFlow node 1
with four dangling child references. -/
def gControl : SemanticGraph :=
  { nodes := [(1, mkNode 1 .ControlFlow [2, 3, 4, 5] [] "rust" 1)],
    root_nodes := [], pattern_cache := [], language := "rust" }

/-- A graph whose pattern_cache is already populated before detection
runs: node 1 is pre-tagged and lands in bucket 0, which already holds
one copy of its id. -/
def gSeeded : SemanticGraph :=
  { nodes := [(1, mkNode 1 (.Pattern .FibonacciLike) [] [] "rust" 1)],
    root_nodes := [], pattern_cache := [(0, [1])], language := "rust" }

/-- A one-node self-loop reachable from the declared root. -/
def gSelfLoop : SemanticGraph :=
  { nodes := [(1, mkNode 1 .Variable [1] [] "rust" 7)],
    root_nodes := [1], pattern_cache := [], language := "rust" }

/-- Acyclic two-node graph, nodes table in insertion order 1 then 2. -/
def gOrderA : SemanticGraph :=
  { nodes := [(1, mkNode 1 .Function [2] [] "rust" 21),
              (2, mkNode 2 .Variable [] [] "rust" 22)],
    root_nodes := [1, 2], pattern_cache := [], language := "rust" }

/-- The same graph as gOrderA with the nodes table in the opposite
order. -/
def gOrderB : SemanticGraph :=
  { nodes := [(2, mkNode 2 .Variable [] [] "rust" 22),
              (1, mkNode 1 .Function [2] [] "rust" 21)],
    root_nodes := [1, 2], pattern_cache := [], language := "rust" }

/-- A rust graph holding one node pre-tagged with the Builder pattern. -/
def gBuilder : SemanticGraph :=
  { nodes := [(1, mkNode 1 (.Pattern .Builder) [] [] "rust" 1)],
    root_nodes := [], pattern_cache := [], language := "rust" }

/-- A node carrying two metadata entries in one insertion order. -/
def nMetaA : SemanticNode :=
  mkNode 9 .Variable [] [("a", "1"), ("b", "2")] "rust" 3

/-- The same node with the metadata entries in the other insertion
order. -/
def nMetaB : SemanticNode :=
  mkNode 9 .Variable [] [("b", "2"), ("a", "1")] "rust" 3

/-- The child-loop body of has_recursive_structure, named for reuse in
lemma statements (definitionally the fold function inside hasRecAux). -/
def recStep (ns : NodeMap) (f : Nat) : Bool × List Nat → Nat → Bool × List Nat :=
  fun acc c => if acc.1 then acc else hasRecAux ns f c acc.2

/-- Every child reference stored anywhere in the nodes table, with
multiplicity. -/
def childUniv (ns : NodeMap) : List Nat :=
  ns.foldr (fun p acc => p.2.children ++ acc) []

/-- Claim C8 counterexample: the claim lists rust as optimal only for
FibonacciLike and DatabaseQuery and asserts that every pattern kind
other than the five it lists maps to none, but the source has a sixth
arm mapping IteratorChain to rust. -/
theorem c8_optimal_language_counterexample :
    get_optimal_language .IteratorChain = some "rust" ∧
      ¬ get_optimal_language .IteratorChain = none := by
  constructor
  · rfl
  · intro h
    cases h

/-- Claim C8 (amended): get_optimal_language returns rust for
FibonacciLike, IteratorChain and DatabaseQuery, python for MapReduce
and DataProcessor, typescript for WebEndpoint, and none for the
remaining pattern kinds (Builder, RecursiveTree, Cacheable). -/
theorem c8_optimal_language_amended :
    get_optimal_language .FibonacciLike = some "rust" ∧
    get_optimal_language .DatabaseQuery = some "rust" ∧
    get_optimal_language .IteratorChain = some "rust" ∧
    get_optimal_language .MapReduce = some "python" ∧
    get_optimal_language .DataProcessor = some "python" ∧
    get_optimal_language .WebEndpoint = some "typescript" ∧
    get_optimal_language .Builder = none ∧
    get_optimal_language .RecursiveTree = none ∧
    get_optimal_language .Cacheable = none := by
  repeat first | constructor | rfl

theorem count_cachePush (cache : List (Nat × List Nat)) (code id c i : Nat) :
    List.count i (bucket (cachePush cache code id) c) =
      List.count i (bucket cache c) + (if code = c ∧ id = i then 1 else 0) := by
  induction cache with
  | nil =>
    by_cases hc : code = c
    · subst hc
      by_cases hi : id = i <;>
        simp [cachePush, bucket, lookupCache, List.count_cons, hi]
    · have hno : ¬ (code = c ∧ id = i) := fun hx => hc hx.1
      simp [cachePush, bucket, lookupCache, hc, hno]
  | cons hd tl ih =>
    obtain ⟨k, l⟩ := hd
    by_cases hk : k = code
    · subst hk
      by_cases hc : k = c
      · subst hc
        simp [cachePush, bucket, lookupCache, List.count_append, List.count_cons]
      · have hno : ¬ (k = c ∧ id = i) := fun hx => hc hx.1
        simp [cachePush, bucket, lookupCache, hc, hno]
    · by_cases hc : k = c
      · subst hc
        have hno : ¬ (code = k ∧ id = i) := fun hx => hk hx.1.symm
        simp [cachePush, bucket, lookupCache, hk, hno]
      · simpa [cachePush, bucket, lookupCache, hk, hc] using ih

theorem detectStep_eq (ns : NodeMap) (cache : List (Nat × List Nat)) (k : Nat) :
    detectStep ns cache k =
      match classifyCode ns k with
      | some cd => cachePush cache cd k
      | none => cache := by
  unfold detectStep classifyCode
  cases getNode ns k with
  | none => rfl
  | some n =>
    show (match analyze_node_pattern ns n with
          | some pattern => cachePush cache (patternCode pattern) k
          | none => cache) =
        match Option.map patternCode (analyze_node_pattern ns n) with
        | some cd => cachePush cache cd k
        | none => cache
    cases analyze_node_pattern ns n with
    | none => rfl
    | some p => rfl

theorem count_detectStep (ns : NodeMap) (cache : List (Nat × List Nat)) (k c i : Nat) :
    List.count i (bucket (detectStep ns cache k) c) =
      List.count i (bucket cache c) +
        (if classifyCode ns k = some c ∧ k = i then 1 else 0) := by
  rw [detectStep_eq]
  cases hcl : classifyCode ns k with
  | none => simp
  | some cd =>
    rw [count_cachePush]
    by_cases hc : cd = c
    · subst hc
      simp
    · have h1 : ¬ (cd = c ∧ k = i) := fun hx => hc hx.1
      have h2 : ¬ ((some cd : Option Nat) = some c ∧ k = i) := by
        intro hx
        exact hc (Option.some.inj hx.1)
      simp [h1, h2]

theorem count_detect_fold (ns : NodeMap) (ks : List Nat)
    (cache : List (Nat × List Nat)) (c i : Nat) :
    List.count i (bucket (ks.foldl (detectStep ns) cache) c) =
      List.count i (bucket cache c) +
        ks.countP (fun k => decide (classifyCode ns k = some c ∧ k = i)) := by
  induction ks generalizing cache with
  | nil => simp
  | cons k ks ih =>
    rw [List.foldl_cons, ih, count_detectStep, List.countP_cons]
    simp only [decide_eq_true_eq]
    by_cases h : classifyCode ns k = some c ∧ k = i
    · simp only [h, if_true]
      omega
    · simp only [h, if_false]
      omega

theorem countP_hit_once {i : Nat} (q : Nat → Prop) [DecidablePred q] (ks : List Nat)
    (h : ks.Nodup) :
    ks.countP (fun k => decide (q k ∧ k = i)) = if i ∈ ks ∧ q i then 1 else 0 := by
  induction ks with
  | nil => simp
  | cons k ks ih =>
    rw [List.nodup_cons] at h
    rw [List.countP_cons, ih h.2]
    by_cases hk : k = i
    · subst hk
      by_cases hq : q k <;> simp [hq, h.1]
    · have hik : ¬ i = k := fun hx => hk hx.symm
      have hno : ¬ (q k ∧ k = i) := fun hx => hk hx.2
      simp [List.mem_cons, hik, hno]

theorem mem_keys_of_getNode {ns : NodeMap} {id : Nat} {n : SemanticNode}
    (h : getNode ns id = some n) : id ∈ ns.map Prod.fst := by
  unfold getNode at h
  cases hf : ns.find? (fun pr => pr.1 == id) with
  | none => rw [hf] at h; cases h
  | some pr =>
    have hp := List.find?_some hf
    have hmem : pr ∈ ns := List.mem_of_find?_eq_some hf
    have heq : pr.1 = id := by simpa using hp
    subst heq
    exact List.mem_map.mpr ⟨pr, hmem, rfl⟩

theorem nodes_detect (g : SemanticGraph) : (detect_patterns g).nodes = g.nodes := rfl

theorem cache_detect (g : SemanticGraph) :
    (detect_patterns g).pattern_cache =
      (g.nodes.map Prod.fst).foldl (detectStep g.nodes) g.pattern_cache := rfl

theorem bucketCount_detect (g : SemanticGraph) (h : keysNodup g) (c i : Nat) :
    bucketCount (detect_patterns g) c i =
      bucketCount g c i +
        (if i ∈ g.nodes.map Prod.fst ∧ classifyCode g.nodes i = some c
         then 1 else 0) := by
  unfold bucketCount
  rw [cache_detect, count_detect_fold,
    countP_hit_once (fun k => classifyCode g.nodes k = some c) _ h]

theorem bucketCount_detect_of_class (g : SemanticGraph) (hnd : keysNodup g)
    {id : Nat} {n : SemanticNode} (hid : getNode g.nodes id = some n)
    {p : PatternType} (ha : analyze_node_pattern g.nodes n = some p) (c : Nat) :
    bucketCount (detect_patterns g) c id =
      bucketCount g c id + (if c = patternCode p then 1 else 0) := by
  rw [bucketCount_detect g hnd]
  have hm : id ∈ g.nodes.map Prod.fst := mem_keys_of_getNode hid
  have hcl : classifyCode g.nodes id = some (patternCode p) := by
    unfold classifyCode
    rw [hid]
    simp [ha]
  rw [hcl]
  by_cases hc : c = patternCode p
  · subst hc
    rw [if_pos ⟨hm, rfl⟩, if_pos rfl]
  · have hno : ¬ (id ∈ g.nodes.map Prod.fst ∧
        (some (patternCode p) : Option Nat) = some c) := by
      intro hx
      exact hc (Option.some.inj hx.2).symm
    rw [if_neg hno, if_neg hc]

theorem bucketCount_detect_of_none (g : SemanticGraph) (hnd : keysNodup g)
    {id : Nat} {n : SemanticNode} (hid : getNode g.nodes id = some n)
    (ha : analyze_node_pattern g.nodes n = none) (c : Nat) :
    bucketCount (detect_patterns g) c id = bucketCount g c id := by
  rw [bucketCount_detect g hnd]
  have hcl : classifyCode g.nodes id = none := by
    unfold classifyCode
    rw [hid]
    simp [ha]
  simp [hcl]

/-- Claim C1: for every graph with the HashMap key invariant and every
Function node in it, detect_patterns appends the id once to the
FibonacciLike bucket when the node has at least 2 children and
has_recursive_structure holds from its id; otherwise once to the
MapReduce bucket when its metadata maps operation to map_reduce;
otherwise it changes no bucket multiplicity for that id; and a Function
node with fewer than 2 children never changes any bucket multiplicity
for its id. -/
theorem c1_function_classification (g : SemanticGraph) (id : Nat) (n : SemanticNode)
    (hnd : keysNodup g) (hid : getNode g.nodes id = some n)
    (htype : n.node_type = .Function) :
    (2 ≤ n.children.length →
      ((has_recursive_structure g.nodes n.id = true →
         ∀ c, bucketCount (detect_patterns g) c id =
           bucketCount g c id + (if c = patternCode .FibonacciLike then 1 else 0)) ∧
       (has_recursive_structure g.nodes n.id = false →
        lookupMeta n.metadata "operation" = some "map_reduce" →
         ∀ c, bucketCount (detect_patterns g) c id =
           bucketCount g c id + (if c = patternCode .MapReduce then 1 else 0)) ∧
       (has_recursive_structure g.nodes n.id = false →
        ¬ lookupMeta n.metadata "operation" = some "map_reduce" →
         ∀ c, bucketCount (detect_patterns g) c id = bucketCount g c id))) ∧
    (n.children.length < 2 →
      ∀ c, bucketCount (detect_patterns g) c id = bucketCount g c id) := by
  constructor
  · intro h2
    refine ⟨?_, ?_, ?_⟩
    · intro hrec c
      have ha : analyze_node_pattern g.nodes n = some .FibonacciLike := by
        simp [analyze_node_pattern, htype, h2, hrec]
      exact bucketCount_detect_of_class g hnd hid ha c
    · intro hrec hmeta c
      have ha : analyze_node_pattern g.nodes n = some .MapReduce := by
        simp [analyze_node_pattern, htype, h2, hrec, hmeta]
      exact bucketCount_detect_of_class g hnd hid ha c
    · intro hrec hmeta c
      have ha : analyze_node_pattern g.nodes n = none := by
        simp [analyze_node_pattern, htype, h2, hrec, hmeta]
      exact bucketCount_detect_of_none g hnd hid ha c
  · intro hlt c
    have ha : analyze_node_pattern g.nodes n = none := by
      have hn2 : ¬ 2 ≤ n.children.length := by omega
      simp [analyze_node_pattern, htype, hn2]
    exact bucketCount_detect_of_none g hnd hid ha c

/-- Witness for claim C1 at a concrete recursive two-child Function
node: detection adds its id once to the FibonacciLike bucket. -/
theorem c1_function_classification_witness :
    keysNodup gScenario2 ∧
    getNode gScenario2.nodes 1 = some (mkNode 1 .Function [2, 2] [] "python" 1) ∧
    has_recursive_structure gScenario2.nodes 1 = true ∧
    bucketCount (detect_patterns gScenario2) 0 1 = bucketCount gScenario2 0 1 + 1 := by
  refine ⟨by decide, by decide, by decide, ?_⟩
  have h := ((c1_function_classification gScenario2 1
      (mkNode 1 .Function [2, 2] [] "python" 1) (by decide) (by decide) rfl).1
      (by decide)).1 (by decide) 0
  simpa using h

/-- Claim C9: for every graph with the HashMap key invariant, a
ControlFlow node with more than 3 children gets its id appended once to
the MapReduce bucket, whether or not the children ids resolve; and on
the concrete rust graph with one ControlFlow node 1 and dangling
children [2,3,4,5] the detected MapReduce bucket is exactly [1]. -/
theorem c9_controlflow_wide_mapreduce :
    (∀ g id n, keysNodup g → getNode g.nodes id = some n →
      n.node_type = .ControlFlow → 3 < n.children.length →
      ∀ c, bucketCount (detect_patterns g) c id =
        bucketCount g c id + (if c = patternCode .MapReduce then 1 else 0)) ∧
    lookupCache (detect_patterns gControl).pattern_cache (patternCode .MapReduce) =
      some [1] := by
  constructor
  · intro g id n hnd hid htype h3 c
    have ha : analyze_node_pattern g.nodes n = some .MapReduce := by
      simp [analyze_node_pattern, htype, h3]
    exact bucketCount_detect_of_class g hnd hid ha c
  · decide

/-- Witness for claim C9 at the concrete ControlFlow graph. -/
theorem c9_controlflow_wide_mapreduce_witness :
    keysNodup gControl ∧
    getNode gControl.nodes 1 = some (mkNode 1 .ControlFlow [2, 3, 4, 5] [] "rust" 1) ∧
    bucketCount (detect_patterns gControl) 1 1 = bucketCount gControl 1 1 + 1 := by
  refine ⟨by decide, by decide, ?_⟩
  have h := c9_controlflow_wide_mapreduce.1 gControl 1
      (mkNode 1 .ControlFlow [2, 3, 4, 5] [] "rust" 1) (by decide) (by decide) rfl
      (by decide) 1
  simpa using h

/-- Claim C5 counterexample: on the spec scenario graph taken
literally (python, Function node 1 with the single child reference [2],
node 2 referencing node 1 back), detection does not place id 1 in the
FibonacciLike bucket: the Function guard requires at least 2 children,
so no FibonacciLike bucket is created at all. -/
theorem c5_scenario_counterexample :
    getNode gScenario.nodes 1 = some (mkNode 1 .Function [2] [] "python" 1) ∧
    lookupCache (detect_patterns gScenario).pattern_cache
      (patternCode .FibonacciLike) = none ∧
    ¬ 1 ∈ bucket (detect_patterns gScenario).pattern_cache
        (patternCode .FibonacciLike) := by
  decide

/-- Claim C5 (amended): in the scenario graph the Function node 1 must
carry two child references (here [2, 2], with node 2 referencing node 1
back, forming the cycle); then detect_patterns places id 1 in the
FibonacciLike bucket of pattern_cache, which equals [1]. -/
theorem c5_scenario_amended :
    lookupCache (detect_patterns gScenario2).pattern_cache
      (patternCode .FibonacciLike) = some [1] ∧
    1 ∈ bucket (detect_patterns gScenario2).pattern_cache
      (patternCode .FibonacciLike) := by
  decide

/-- Claim C6 counterexample: on a graph whose pattern_cache is already
seeded before detection, re-running detection does append a second copy
of the classified id, but the final multiplicity (3) is not twice the
multiplicity after the first run (2). -/
theorem c6_rerun_counterexample :
    bucketCount (detect_patterns gSeeded) 0 1 = 2 ∧
    bucketCount (detect_patterns (detect_patterns gSeeded)) 0 1 = 3 ∧
    ¬ bucketCount (detect_patterns (detect_patterns gSeeded)) 0 1 =
        2 * bucketCount (detect_patterns gSeeded) 0 1 := by
  decide

/-- Claim C6 (amended): detect_patterns is not idempotent; a second run
appends the same per-bucket multiplicity increment again (buckets are
never deduplicated or cleared), so the multiplicity after two runs plus
the pre-detection multiplicity equals twice the multiplicity after one
run; in particular when a bucket starts empty, its multiplicities after
two runs are exactly twice those after one run. -/
theorem c6_rerun_appends :
    (∀ g : SemanticGraph, ∀ c i,
      bucketCount (detect_patterns (detect_patterns g)) c i + bucketCount g c i =
        2 * bucketCount (detect_patterns g) c i) ∧
    (∀ g : SemanticGraph, ∀ c i, bucket g.pattern_cache c = [] →
      bucketCount (detect_patterns (detect_patterns g)) c i =
        2 * bucketCount (detect_patterns g) c i) := by
  have key : ∀ g : SemanticGraph, ∀ c i,
      bucketCount (detect_patterns g) c i = bucketCount g c i +
        (g.nodes.map Prod.fst).countP
          (fun k => decide (classifyCode g.nodes k = some c ∧ k = i)) := by
    intro g c i
    unfold bucketCount
    rw [cache_detect, count_detect_fold]
  constructor
  · intro g c i
    have h1 := key g c i
    have h2 := key (detect_patterns g) c i
    rw [nodes_detect] at h2
    omega
  · intro g c i h0
    have hz : bucketCount g c i = 0 := by
      unfold bucketCount
      rw [h0]
      rfl
    have h1 := key g c i
    have h2 := key (detect_patterns g) c i
    rw [nodes_detect] at h2
    omega

/-- Witness for claim C6 at a concrete graph with an initially empty
bucket: two detection runs exactly double the bucket multiplicity. -/
theorem c6_rerun_appends_witness :
    bucket gControl.pattern_cache 1 = [] ∧
    bucketCount (detect_patterns (detect_patterns gControl)) 1 1 =
      2 * bucketCount (detect_patterns gControl) 1 1 :=
  ⟨by decide, c6_rerun_appends.2 gControl 1 1 (by decide)⟩

theorem hasRecAux_zero (ns : NodeMap) (id : Nat) (v : List Nat) :
    hasRecAux ns 0 id v = (true, v) := rfl

theorem hasRecAux_succ (ns : NodeMap) (f id : Nat) (v : List Nat) :
    hasRecAux ns (f + 1) id v =
      if id ∈ v then (true, v)
      else
        match getNode ns id with
        | none => (false, v ++ [id])
        | some n => n.children.foldl (recStep ns f) (false, v ++ [id]) := rfl

theorem recStep_foldl_true (ns : NodeMap) (f : Nat) :
    ∀ cs : List Nat, ∀ v : List Nat, cs.foldl (recStep ns f) (true, v) = (true, v) := by
  intro cs
  induction cs with
  | nil => intro v; rfl
  | cons c cs ih =>
    intro v
    rw [List.foldl_cons]
    show cs.foldl (recStep ns f) (recStep ns f (true, v) c) = _
    rw [show recStep ns f (true, v) c = (true, v) from rfl]
    exact ih v

theorem recStep_foldl_mono (ns : NodeMap) (f : Nat)
    (hmono : ∀ id v x, x ∈ v → x ∈ (hasRecAux ns f id v).2) :
    ∀ cs : List Nat, ∀ acc : Bool × List Nat, ∀ x, x ∈ acc.2 →
      x ∈ (cs.foldl (recStep ns f) acc).2 := by
  intro cs
  induction cs with
  | nil => intro acc x hx; exact hx
  | cons c cs ih =>
    intro acc x hx
    rw [List.foldl_cons]
    apply ih
    unfold recStep
    by_cases hb : acc.1 = true
    · simpa [hb] using hx
    · simp only [hb, if_false]
      exact hmono c acc.2 x hx

theorem hasRecAux_mono (ns : NodeMap) :
    ∀ f id v x, x ∈ v → x ∈ (hasRecAux ns f id v).2 := by
  intro f
  induction f with
  | zero => intro id v x hx; simpa [hasRecAux_zero] using hx
  | succ f ih =>
    intro id v x hx
    rw [hasRecAux_succ]
    by_cases hv : id ∈ v
    · simpa [hv] using hx
    · rw [if_neg hv]
      cases hg : getNode ns id with
      | none => simp [hx]
      | some n =>
        exact recStep_foldl_mono ns f ih n.children (false, v ++ [id]) x
          (by simp [hx])

theorem recStep_foldl_false (ns : NodeMap) (f : Nat) :
    ∀ cs : List Nat, ∀ v u : List Nat,
      cs.foldl (recStep ns f) (false, v) = (false, u) →
      ∀ c ∈ cs, ∃ vc wc, hasRecAux ns f c vc = (false, wc) ∧ ∀ x ∈ v, x ∈ vc := by
  intro cs
  induction cs with
  | nil =>
    intro v u _ c hc
    cases hc
  | cons c0 cs ih =>
    intro v u h c hc
    rw [List.foldl_cons] at h
    rw [show recStep ns f (false, v) c0 = hasRecAux ns f c0 v from rfl] at h
    rcases hr : hasRecAux ns f c0 v with ⟨b1, v1⟩
    rw [hr] at h
    cases b1 with
    | true =>
      rw [recStep_foldl_true] at h
      cases h
    | false =>
      rcases List.mem_cons.mp hc with rfl | hc2
      · exact ⟨v, v1, hr, fun x hx => hx⟩
      · obtain ⟨vc, wc, h1, h2⟩ := ih v1 u h c hc2
        refine ⟨vc, wc, h1, fun x hx => h2 x ?_⟩
        have := hasRecAux_mono ns f c0 v x hx
        rwa [hr] at this

theorem hasRec_false_reaches (ns : NodeMap) {s y : Nat} (hr : Reach ns s y) :
    ∀ f v v', hasRecAux ns f s v = (false, v') →
      ∀ n, getNode ns y = some n → ∀ c1 ∈ n.children,
        ∃ fc vc wc, hasRecAux ns fc c1 vc = (false, wc) ∧
          ∀ x, (x ∈ v ∨ x = s) → x ∈ vc := by
  induction hr with
  | refl a =>
    intro f v v' h n hn c1 hc1
    cases f with
    | zero =>
      rw [hasRecAux_zero] at h
      cases h
    | succ f =>
      rw [hasRecAux_succ] at h
      by_cases hv : a ∈ v
      · rw [if_pos hv] at h
        cases h
      · rw [if_neg hv, hn] at h
        obtain ⟨vc, wc, h1, h2⟩ :=
          recStep_foldl_false ns f n.children (v ++ [a]) v' h c1 hc1
        refine ⟨f, vc, wc, h1, fun x hx => h2 x ?_⟩
        rcases hx with hx | rfl
        · simp [hx]
        · simp
  | step hga hcc hrcb ih =>
    intro f v v' h n hn c1 hc1
    rename_i a b c0 n0
    cases f with
    | zero =>
      rw [hasRecAux_zero] at h
      cases h
    | succ f =>
      rw [hasRecAux_succ] at h
      by_cases hv : a ∈ v
      · rw [if_pos hv] at h
        cases h
      · rw [if_neg hv, hga] at h
        obtain ⟨vc0, wc0, h1, h2⟩ :=
          recStep_foldl_false ns f n0.children (v ++ [a]) v' h c0 hcc
        obtain ⟨fc, vc, wc, h3, h4⟩ := ih f vc0 wc0 h1 n hn c1 hc1
        refine ⟨fc, vc, wc, h3, fun x hx => h4 x (Or.inl ?_)⟩
        apply h2
        rcases hx with hx | rfl
        · simp [hx]
        · simp

theorem cycleThrough_hasRec (ns : NodeMap) (s : Nat) (h : CycleThrough ns s) :
    has_recursive_structure ns s = true := by
  obtain ⟨y, n, hreach, hy, hs⟩ := h
  rcases hrun : hasRecAux ns (recFuel ns) s [] with ⟨b, v'⟩
  cases b with
  | true =>
    unfold has_recursive_structure
    rw [hrun]
  | false =>
    exfalso
    obtain ⟨fc, vc, wc, h1, h2⟩ :=
      hasRec_false_reaches ns hreach (recFuel ns) [] v' hrun n hy s hs
    have hsvc : s ∈ vc := h2 s (Or.inr rfl)
    cases fc with
    | zero =>
      rw [hasRecAux_zero] at h1
      cases h1
    | succ fc =>
      rw [hasRecAux_succ, if_pos hsvc] at h1
      cases h1

theorem preorderWalk_zero (ns : NodeMap) (id : Nat) : preorderWalk ns 0 id = none := rfl

theorem optAppend_some {x y : Option (List Nat)} {l : List Nat}
    (h : optAppend x y = some l) :
    ∃ l1 l2, x = some l1 ∧ y = some l2 ∧ l = l1 ++ l2 := by
  cases x with
  | none => simp [optAppend] at h
  | some l1 =>
    cases y with
    | none => simp [optAppend] at h
    | some l2 =>
      refine ⟨l1, l2, rfl, rfl, ?_⟩
      simpa [optAppend] using h.symm

theorem preorderWalk_succ (ns : NodeMap) (f id : Nat) :
    preorderWalk ns (f + 1) id =
      match getNode ns id with
      | none => some [id]
      | some n => (walkFold ns f n.children).map (fun l => id :: l) := rfl

theorem walkFold_nil (ns : NodeMap) (f : Nat) : walkFold ns f [] = some [] := rfl

theorem walkFold_cons (ns : NodeMap) (f c : Nat) (cs : List Nat) :
    walkFold ns f (c :: cs) = optAppend (preorderWalk ns f c) (walkFold ns f cs) := rfl

theorem walkFold_piece (ns : NodeMap) (f : Nat) :
    ∀ cs ls, walkFold ns f cs = some ls →
      ∀ c ∈ cs, ∃ lc, preorderWalk ns f c = some lc ∧ ∀ x ∈ lc, x ∈ ls := by
  intro cs
  induction cs with
  | nil =>
    intro ls _ c hc
    cases hc
  | cons c0 cs ih =>
    intro ls h c hc
    rw [walkFold_cons] at h
    obtain ⟨l1, l2, h1, h2, rfl⟩ := optAppend_some h
    rcases List.mem_cons.mp hc with rfl | hc2
    · exact ⟨l1, h1, fun x hx => List.mem_append_left _ hx⟩
    · obtain ⟨lc, hlc, hsub⟩ := ih l2 h2 c hc2
      exact ⟨lc, hlc, fun x hx => List.mem_append_right _ (hsub x hx)⟩

theorem reach_mem_preorder (ns : NodeMap) :
    ∀ f s l, preorderWalk ns f s = some l → ∀ i, Reach ns s i → i ∈ l := by
  intro f
  induction f with
  | zero =>
    intro s l h
    cases h
  | succ f ih =>
    intro s l h i hr
    rw [preorderWalk_succ] at h
    cases hg : getNode ns s with
    | none =>
      rw [hg] at h
      obtain rfl : l = [s] := (Option.some.inj h).symm
      cases hr with
      | refl => simp
      | step hga hcc hrc =>
        rw [hg] at hga
        cases hga
    | some n =>
      rw [hg] at h
      obtain ⟨ls, hls, rfl⟩ := Option.map_eq_some'.mp h
      cases hr with
      | refl => exact List.mem_cons_self _ _
      | @step _ _ c0 n0 hga hcc hrc =>
        rw [hg] at hga
        obtain rfl : n = n0 := Option.some.inj hga
        obtain ⟨lc, hlc, hsub⟩ := walkFold_piece ns f n.children ls hls c0 hcc
        exact List.mem_cons_of_mem _ (hsub i (ih c0 lc hlc i hrc))

theorem walkFold_mono (ns : NodeMap) (f : Nat)
    (ihm : ∀ s l, preorderWalk ns f s = some l →
      ∀ f2, f ≤ f2 → preorderWalk ns f2 s = some l) :
    ∀ cs ls, walkFold ns f cs = some ls →
      ∀ f2, f ≤ f2 → walkFold ns f2 cs = some ls := by
  intro cs
  induction cs with
  | nil =>
    intro ls h f2 _
    rw [walkFold_nil] at h ⊢
    exact h
  | cons c0 cs ih =>
    intro ls h f2 hf2
    rw [walkFold_cons] at h
    obtain ⟨l1, l2, h1, h2, rfl⟩ := optAppend_some h
    rw [walkFold_cons, ihm c0 l1 h1 f2 hf2, ih l2 h2 f2 hf2]
    rfl

theorem preorderWalk_mono (ns : NodeMap) :
    ∀ f s l, preorderWalk ns f s = some l →
      ∀ f2, f ≤ f2 → preorderWalk ns f2 s = some l := by
  intro f
  induction f with
  | zero =>
    intro s l h
    cases h
  | succ f ih =>
    intro s l h f2 hf2
    obtain ⟨f2', rfl⟩ : ∃ f2', f2 = f2' + 1 := ⟨f2 - 1, by omega⟩
    rw [preorderWalk_succ] at h ⊢
    cases hg : getNode ns s with
    | none =>
      rw [hg] at h
      exact h
    | some n =>
      rw [hg] at h
      replace h : Option.map (fun l => s :: l) (walkFold ns f n.children) = some l := h
      obtain ⟨ls, hls, rfl⟩ := Option.map_eq_some'.mp h
      show Option.map (fun l => s :: l) (walkFold ns f2' n.children) = some (s :: ls)
      rw [walkFold_mono ns f ih n.children ls hls f2' (by omega)]
      rfl

theorem walkFold_shrink (ns : NodeMap) (f : Nat)
    (ihm : ∀ s l, preorderWalk ns f s = some l →
      preorderWalk ns l.length s = some l) :
    ∀ cs ls, walkFold ns f cs = some ls →
      ∀ fF, ls.length ≤ fF → walkFold ns fF cs = some ls := by
  intro cs
  induction cs with
  | nil =>
    intro ls h fF _
    rw [walkFold_nil] at h ⊢
    exact h
  | cons c0 cs ih =>
    intro ls h fF hF
    rw [walkFold_cons] at h
    obtain ⟨l1, l2, h1, h2, rfl⟩ := optAppend_some h
    rw [List.length_append] at hF
    have hc0 : preorderWalk ns fF c0 = some l1 :=
      preorderWalk_mono ns l1.length c0 l1 (ihm c0 l1 h1) fF (by omega)
    rw [walkFold_cons, hc0, ih l2 h2 fF (by omega)]
    rfl

theorem preorderWalk_shrink (ns : NodeMap) :
    ∀ f s l, preorderWalk ns f s = some l → preorderWalk ns l.length s = some l := by
  intro f
  induction f with
  | zero =>
    intro s l h
    cases h
  | succ f ih =>
    intro s l h
    rw [preorderWalk_succ] at h
    cases hg : getNode ns s with
    | none =>
      rw [hg] at h
      obtain rfl : l = [s] := (Option.some.inj h).symm
      rw [show ([s] : List Nat).length = 0 + 1 from rfl, preorderWalk_succ, hg]
    | some n =>
      rw [hg] at h
      obtain ⟨ls, hls, rfl⟩ := Option.map_eq_some'.mp h
      rw [show (s :: ls).length = ls.length + 1 from rfl, preorderWalk_succ, hg]
      show Option.map (fun l => s :: l) (walkFold ns ls.length n.children) =
        some (s :: ls)
      rw [walkFold_shrink ns f ih n.children ls hls ls.length (Nat.le_refl _)]
      rfl

theorem mem_childUniv_of_mem {ns : NodeMap} {pr : Nat × SemanticNode} (h : pr ∈ ns) :
    ∀ c ∈ pr.2.children, c ∈ childUniv ns := by
  induction ns with
  | nil => cases h
  | cons q ns ih =>
    intro c hc
    rw [show childUniv (q :: ns) = q.2.children ++ childUniv ns from rfl]
    rcases List.mem_cons.mp h with rfl | h2
    · exact List.mem_append_left _ hc
    · exact List.mem_append_right _ (ih h2 c hc)

theorem mem_childUniv {ns : NodeMap} {i : Nat} {n : SemanticNode}
    (h : getNode ns i = some n) : ∀ c ∈ n.children, c ∈ childUniv ns := by
  unfold getNode at h
  cases hf : ns.find? (fun pr => pr.1 == i) with
  | none =>
    rw [hf] at h
    cases h
  | some pr =>
    rw [hf] at h
    obtain rfl : pr.2 = n := by simpa using h
    exact mem_childUniv_of_mem (List.mem_of_find?_eq_some hf)

theorem childUniv_length (ns : NodeMap) :
    (childUniv ns).length = childrenCount ns := by
  induction ns with
  | nil => rfl
  | cons q ns ih =>
    simp only [childUniv, childrenCount, List.foldr_cons, List.length_append] at ih ⊢
    omega

theorem walkFold_subset (ns : NodeMap) (f : Nat)
    (ihm : ∀ s l, preorderWalk ns f s = some l →
      ∀ x ∈ l, x = s ∨ x ∈ childUniv ns) :
    ∀ cs ls, walkFold ns f cs = some ls → (∀ c ∈ cs, c ∈ childUniv ns) →
      ∀ x ∈ ls, x ∈ childUniv ns := by
  intro cs
  induction cs with
  | nil =>
    intro ls h _ x hx
    rw [walkFold_nil] at h
    obtain rfl : ls = [] := (Option.some.inj h).symm
    cases hx
  | cons c0 cs ih =>
    intro ls h hcs x hx
    rw [walkFold_cons] at h
    obtain ⟨l1, l2, h1, h2, rfl⟩ := optAppend_some h
    rcases List.mem_append.mp hx with hx1 | hx2
    · rcases ihm c0 l1 h1 x hx1 with rfl | hcu
      · exact hcs x (List.mem_cons_self _ _)
      · exact hcu
    · exact ih l2 h2 (fun c hc => hcs c (List.mem_cons_of_mem _ hc)) x hx2

theorem preorderWalk_subset (ns : NodeMap) :
    ∀ f s l, preorderWalk ns f s = some l →
      ∀ x ∈ l, x = s ∨ x ∈ childUniv ns := by
  intro f
  induction f with
  | zero =>
    intro s l h
    cases h
  | succ f ih =>
    intro s l h x hx
    rw [preorderWalk_succ] at h
    cases hg : getNode ns s with
    | none =>
      rw [hg] at h
      obtain rfl : l = [s] := (Option.some.inj h).symm
      left
      simpa using hx
    | some n =>
      rw [hg] at h
      obtain ⟨ls, hls, rfl⟩ := Option.map_eq_some'.mp h
      rcases List.mem_cons.mp hx with rfl | hx2
      · exact Or.inl rfl
      · exact Or.inr (walkFold_subset ns f ih n.children ls hls
          (mem_childUniv hg) x hx2)

theorem nodup_length_le {l bigL : List Nat} (hnd : l.Nodup)
    (hsub : ∀ x ∈ l, x ∈ bigL) : l.length ≤ bigL.length := by
  have h1 : l.toFinset.card = l.length := List.toFinset_card_of_nodup hnd
  have h2 : l.toFinset ⊆ bigL.toFinset := by
    intro a ha
    rw [List.mem_toFinset] at ha ⊢
    exact hsub a ha
  have h3 := Finset.card_le_card h2
  have h4 := List.toFinset_card_le bigL
  omega

theorem walkFold_hasRec (ns : NodeMap) (f : Nat)
    (ihm : ∀ id l, preorderWalk ns f id = some l → l.Nodup →
      ∀ fb v, f ≤ fb → (∀ x ∈ v, x ∉ l) → hasRecAux ns fb id v = (false, v ++ l)) :
    ∀ cs ls, walkFold ns f cs = some ls → ls.Nodup →
      ∀ fb v, f ≤ fb → (∀ x ∈ v, x ∉ ls) →
        cs.foldl (recStep ns fb) (false, v) = (false, v ++ ls) := by
  intro cs
  induction cs with
  | nil =>
    intro ls h _ fb v _ _
    rw [walkFold_nil] at h
    obtain rfl : ls = [] := (Option.some.inj h).symm
    simp
  | cons c0 cs ih =>
    intro ls h hnd fb v hfb hdisj
    rw [walkFold_cons] at h
    obtain ⟨l1, l2, h1, h2, rfl⟩ := optAppend_some h
    rw [List.nodup_append] at hnd
    obtain ⟨hnd1, hnd2, hdisj12⟩ := hnd
    rw [List.foldl_cons,
      show recStep ns fb (false, v) c0 = hasRecAux ns fb c0 v from rfl,
      ihm c0 l1 h1 hnd1 fb v hfb
        (fun x hx hm => hdisj x hx (List.mem_append_left _ hm)),
      ih l2 h2 hnd2 fb (v ++ l1) hfb ?disj, List.append_assoc]
    case disj =>
      intro x hx hm2
      rcases List.mem_append.mp hx with hxv | hxl1
      · exact hdisj x hxv (List.mem_append_right _ hm2)
      · exact hdisj12 hxl1 hm2

theorem preorder_nodup_hasRecAux (ns : NodeMap) :
    ∀ f id l, preorderWalk ns f id = some l → l.Nodup →
      ∀ fb v, f ≤ fb → (∀ x ∈ v, x ∉ l) →
        hasRecAux ns fb id v = (false, v ++ l) := by
  intro f
  induction f with
  | zero =>
    intro id l h
    cases h
  | succ f ih =>
    intro id l h hnd fb v hfb hdisj
    obtain ⟨fb', rfl⟩ : ∃ fb', fb = fb' + 1 := ⟨fb - 1, by omega⟩
    rw [preorderWalk_succ] at h
    rw [hasRecAux_succ]
    cases hg : getNode ns id with
    | none =>
      rw [hg] at h
      obtain rfl : l = [id] := (Option.some.inj h).symm
      have hidv : id ∉ v := fun hm => hdisj id hm (by simp)
      rw [if_neg hidv]
    | some n =>
      rw [hg] at h
      obtain ⟨ls, hls, rfl⟩ := Option.map_eq_some'.mp h
      have hidv : id ∉ v := fun hm => hdisj id hm (by simp)
      rw [if_neg hidv]
      rw [List.nodup_cons] at hnd
      have hrun := walkFold_hasRec ns f ih n.children ls hls hnd.2 fb'
        (v ++ [id]) (by omega) ?hd
      · show n.children.foldl (recStep ns fb') (false, v ++ [id]) =
          (false, v ++ (id :: ls))
        rw [hrun, List.append_assoc]
        rfl
      case hd =>
        intro x hx
        rcases List.mem_append.mp hx with hxv | hxid
        · intro hm
          exact hdisj x hxv (List.mem_cons_of_mem _ hm)
        · have : x = id := by simpa using hxid
          subst this
          exact hnd.1

theorem treelike_not_hasRec (ns : NodeMap) (s f : Nat) (l : List Nat)
    (h : preorderWalk ns f s = some l) (hnd : l.Nodup) :
    has_recursive_structure ns s = false := by
  have h1 := preorderWalk_shrink ns f s l h
  have hsub : ∀ x ∈ l, x ∈ s :: childUniv ns := by
    intro x hx
    rcases preorderWalk_subset ns f s l h x hx with rfl | hcu
    · exact List.mem_cons_self _ _
    · exact List.mem_cons_of_mem _ hcu
  have hlen : l.length ≤ (s :: childUniv ns).length := nodup_length_le hnd hsub
  have hlen2 : l.length ≤ recFuel ns := by
    have hcc := childUniv_length ns
    rw [List.length_cons] at hlen
    unfold recFuel
    omega
  have hrun := preorder_nodup_hasRecAux ns l.length s l h1 hnd (recFuel ns) []
    hlen2 (by simp)
  unfold has_recursive_structure
  rw [hrun]

/-- Claim C2 counterexample: the diamond graph gDiamond is strictly
acyclic from its two-child Function node 1 (witnessed by a topological
rank), yet has_recursive_structure returns true from node 1, because
the shared visited list makes the second route to the shared leaf 4
count as a revisit. -/
theorem c2_recursion_detection_counterexample :
    AcyclicFrom gDiamond.nodes 1 ∧
      has_recursive_structure gDiamond.nodes 1 = true := by
  constructor
  · refine ⟨fun i => 5 - i, ?_⟩
    intro i hreach n hn c hc
    have hwalk : preorderWalk gDiamond.nodes 6 1 = some [1, 2, 4, 3, 4] := by decide
    have hl : i ∈ [1, 2, 4, 3, 4] :=
      reach_mem_preorder gDiamond.nodes 6 1 [1, 2, 4, 3, 4] hwalk i hreach
    have hi : i = 1 ∨ i = 2 ∨ i = 4 ∨ i = 3 := by
      have := hl
      simp only [List.mem_cons, List.not_mem_nil, or_false] at this
      tauto
    rcases hi with rfl | rfl | rfl | rfl
    · have hfact : getNode gDiamond.nodes 1 =
          some (mkNode 1 .Function [2, 3] [] "rust" 11) := by decide
      rw [hfact] at hn
      obtain rfl := Option.some.inj hn
      fin_cases hc <;> decide
    · have hfact : getNode gDiamond.nodes 2 =
          some (mkNode 2 .Variable [4] [] "rust" 12) := by decide
      rw [hfact] at hn
      obtain rfl := Option.some.inj hn
      fin_cases hc <;> decide
    · have hfact : getNode gDiamond.nodes 4 =
          some (mkNode 4 .Variable [] [] "rust" 14) := by decide
      rw [hfact] at hn
      obtain rfl := Option.some.inj hn
      cases hc
    · have hfact : getNode gDiamond.nodes 3 =
          some (mkNode 3 .Variable [4] [] "rust" 13) := by decide
      rw [hfact] at hn
      obtain rfl := Option.some.inj hn
      fin_cases hc <;> decide
  · decide

/-- Claim C2 (amended): has_recursive_structure started from a node
whose children eventually reference the starting node itself (a direct
or indirect cycle through ids present in the graph) returns true; and
for every node whose reachable-by-children subgraph unfolds to a finite
duplicate-free preorder (a tree: no id is reached twice, neither by a
cycle nor by two converging routes or duplicate child entries),
has_recursive_structure returns false.  The claim as frozen asserted
falseness for every strictly acyclic reachable subgraph, which the
shared-subtree counterexample refutes. -/
theorem c2_recursion_detection (ns : NodeMap) (s : Nat) :
    (CycleThrough ns s → has_recursive_structure ns s = true) ∧
    (∀ f l, preorderWalk ns f s = some l → l.Nodup →
      has_recursive_structure ns s = false) :=
  ⟨cycleThrough_hasRec ns s,
   fun f l h hnd => treelike_not_hasRec ns s f l h hnd⟩

/-- Witness for claim C2: the two-node cycle graph gScenario2 is
detected as recursive from node 1, and the acyclic chain gOrderA, whose
preorder from node 1 is the duplicate-free [1, 2], is not. -/
theorem c2_recursion_detection_witness :
    CycleThrough gScenario2.nodes 1 ∧
    has_recursive_structure gScenario2.nodes 1 = true ∧
    preorderWalk gOrderA.nodes 3 1 = some [1, 2] ∧
    has_recursive_structure gOrderA.nodes 1 = false := by
  have hcyc : CycleThrough gScenario2.nodes 1 := by
    refine ⟨2, mkNode 2 .Variable [1] [] "python" 2, ?_, by decide, by decide⟩
    exact Reach.step (n := mkNode 1 .Function [2, 2] [] "python" 1)
      (by decide) (by decide) (Reach.refl 2)
  refine ⟨hcyc, (c2_recursion_detection gScenario2.nodes 1).1 hcyc, by decide, ?_⟩
  exact (c2_recursion_detection gOrderA.nodes 1).2 3 [1, 2] (by decide) (by decide)

theorem hash_node_tree_zero (ns : NodeMap) (id : Nat) :
    hash_node_tree ns 0 id = none := rfl

theorem hash_node_tree_succ (ns : NodeMap) (f id : Nat) :
    hash_node_tree ns (f + 1) id =
      match getNode ns id with
      | none => some []
      | some n => (hashFold ns f n.children).map (fun l => n.pattern_hash :: l) := rfl

theorem calc_hash_eq (g : SemanticGraph) (f : Nat) :
    calculate_semantic_hash g f =
      (rootsFold g.nodes f g.root_nodes).map blake3Finalize := rfl

theorem optAppend_foldr_none (wf : Nat → Option (List Nat)) :
    ∀ cs : List Nat, ∀ c ∈ cs, wf c = none →
      cs.foldr (fun c acc => optAppend (wf c) acc) (some []) = none := by
  intro cs
  induction cs with
  | nil =>
    intro c hc
    cases hc
  | cons c0 cs ih =>
    intro c hc hn
    rw [List.foldr_cons]
    rcases List.mem_cons.mp hc with rfl | hc2
    · rw [hn]
      rfl
    · rw [ih c hc2 hn]
      cases wf c0 <;> rfl

theorem optAppend_foldr_isSome (wf : Nat → Option (List Nat)) :
    ∀ cs : List Nat, (∀ c ∈ cs, (wf c).isSome) →
      (cs.foldr (fun c acc => optAppend (wf c) acc) (some [])).isSome := by
  intro cs
  induction cs with
  | nil =>
    intro _
    rfl
  | cons c0 cs ih =>
    intro h
    rw [List.foldr_cons]
    obtain ⟨l1, h1⟩ := Option.isSome_iff_exists.mp (h c0 (List.mem_cons_self _ _))
    obtain ⟨l2, h2⟩ := Option.isSome_iff_exists.mp
      (ih (fun c hc => h c (List.mem_cons_of_mem _ hc)))
    rw [h1, h2]
    rfl

theorem reach_extend {ns : NodeMap} {a b c : Nat} {n : SemanticNode}
    (h : Reach ns a b) (hb : getNode ns b = some n) (hc : c ∈ n.children) :
    Reach ns a c := by
  induction h with
  | refl x => exact Reach.step hb hc (Reach.refl c)
  | step hga hcc _ ih => exact Reach.step hga hcc (ih hb)

theorem cycle_walk_none (ns : NodeMap) {y : Nat} (hcyc : CycleAt ns y) :
    ∀ f z, Reach ns z y → hash_node_tree ns f z = none := by
  intro f
  induction f with
  | zero =>
    intro z _
    rfl
  | succ f ih =>
    intro z hr
    cases hr with
    | refl =>
      obtain ⟨n, c, hgy, hcc, hcy⟩ := hcyc
      rw [hash_node_tree_succ, hgy]
      show (hashFold ns f n.children).map (fun l => n.pattern_hash :: l) = none
      rw [show hashFold ns f n.children = none from
        optAppend_foldr_none (hash_node_tree ns f) n.children c hcc (ih c hcy)]
      rfl
    | @step _ _ c0 n0 hga hcc hrc =>
      rw [hash_node_tree_succ, hga]
      show (hashFold ns f n0.children).map (fun l => n0.pattern_hash :: l) = none
      rw [show hashFold ns f n0.children = none from
        optAppend_foldr_none (hash_node_tree ns f) n0.children c0 hcc (ih c0 hrc)]
      rfl

theorem le_foldr_max : ∀ l : List Nat, ∀ x ∈ l, x ≤ l.foldr Nat.max 0 := by
  intro l
  induction l with
  | nil =>
    intro x hx
    cases hx
  | cons a l ih =>
    intro x hx
    rw [List.foldr_cons]
    rcases List.mem_cons.mp hx with rfl | hx2
    · exact Nat.le_max_left _ _
    · exact Nat.le_trans (ih x hx2) (Nat.le_max_right _ _)

theorem acyclic_calc_isSome (g : SemanticGraph) (h : AcyclicFromRoots g) :
    ∃ f, (calculate_semantic_hash g f).isSome := by
  obtain ⟨rk, hrk⟩ := h
  refine ⟨(g.root_nodes.map rk).foldr Nat.max 0 + 1, ?_⟩
  have hwalk : ∀ f i, ReachFromRoots g i → rk i < f →
      (hash_node_tree g.nodes f i).isSome := by
    intro f
    induction f with
    | zero =>
      intro i _ h0
      omega
    | succ f ih =>
      intro i hri hlt
      rw [hash_node_tree_succ]
      cases hg : getNode g.nodes i with
      | none => rfl
      | some n =>
        have hfold : (hashFold g.nodes f n.children).isSome := by
          refine optAppend_foldr_isSome (hash_node_tree g.nodes f) n.children ?_
          intro c hc
          obtain ⟨r, hr, hre⟩ := hri
          have hrc : ReachFromRoots g c := ⟨r, hr, reach_extend hre hg hc⟩
          have hlt2 : rk c < rk i := hrk i ⟨r, hr, hre⟩ n hg c hc
          exact ih c hrc (by omega)
        obtain ⟨l, hl⟩ := Option.isSome_iff_exists.mp hfold
        show ((hashFold g.nodes f n.children).map
          (fun l => n.pattern_hash :: l)).isSome = true
        rw [hl]
        rfl
  rw [calc_hash_eq]
  have hroots : ∀ r ∈ g.root_nodes,
      (rootBytes g.nodes ((g.root_nodes.map rk).foldr Nat.max 0 + 1) r).isSome := by
    intro r hr
    unfold rootBytes
    cases hg : getNode g.nodes r with
    | none => rfl
    | some n =>
      have hin : rk r ≤ (g.root_nodes.map rk).foldr Nat.max 0 :=
        le_foldr_max _ _ (List.mem_map_of_mem rk hr)
      have hsome := hwalk ((g.root_nodes.map rk).foldr Nat.max 0 + 1) r
        ⟨r, hr, Reach.refl r⟩ (by omega)
      obtain ⟨l, hl⟩ := Option.isSome_iff_exists.mp hsome
      rw [hl]
      rfl
  obtain ⟨l, hl⟩ := Option.isSome_iff_exists.mp
    (optAppend_foldr_isSome (rootBytes g.nodes _) g.root_nodes hroots)
  rw [show rootsFold g.nodes ((g.root_nodes.map rk).foldr Nat.max 0 + 1)
      g.root_nodes = some l from hl]
  rfl

theorem cycle_calc_none (g : SemanticGraph) (r : Nat) (hr : r ∈ g.root_nodes)
    (hcy : ∃ y, Reach g.nodes r y ∧ CycleAt g.nodes y) (f : Nat) :
    calculate_semantic_hash g f = none := by
  obtain ⟨y, hry, hcyc⟩ := hcy
  have hwalk : hash_node_tree g.nodes f r = none :=
    cycle_walk_none g.nodes hcyc f r hry
  have hpres : ∃ n, getNode g.nodes r = some n := by
    cases hry with
    | refl =>
      obtain ⟨n, c, hgy, _, _⟩ := hcyc
      exact ⟨n, hgy⟩
    | step hga _ _ => exact ⟨_, hga⟩
  obtain ⟨n, hn⟩ := hpres
  have hroot : rootBytes g.nodes f r = none := by
    unfold rootBytes
    rw [hn, hwalk]
    rfl
  rw [calc_hash_eq,
    show rootsFold g.nodes f g.root_nodes = none from
      optAppend_foldr_none (rootBytes g.nodes f) g.root_nodes r hr hroot]
  rfl

theorem rootBytes_encode (ns : NodeMap) (f r : Nat) :
    rootBytes ns f r =
      encodeRootData ((getNode ns r).map fun n =>
        (n.id, n.language, hash_node_tree ns f r)) := by
  unfold rootBytes
  cases hg : getNode ns r with
  | none => rfl
  | some n => rfl

theorem rootsFold_encode (ns : NodeMap) (f : Nat) :
    ∀ roots : List Nat,
      rootsFold ns f roots =
        (roots.map fun r => (getNode ns r).map fun n =>
            (n.id, n.language, hash_node_tree ns f r)).foldr
          (fun d acc => optAppend (encodeRootData d) acc) (some []) := by
  intro roots
  induction roots with
  | nil => rfl
  | cons r roots ih =>
    rw [show rootsFold ns f (r :: roots) =
        optAppend (rootBytes ns f r) (rootsFold ns f roots) from rfl,
      ih, List.map_cons, List.foldr_cons, rootBytes_encode]

theorem hashFold_congr (ns1 ns2 : NodeMap) (f : Nat)
    (ihm : ∀ id, hash_node_tree ns1 f id = hash_node_tree ns2 f id) :
    ∀ cs, hashFold ns1 f cs = hashFold ns2 f cs := by
  intro cs
  induction cs with
  | nil => rfl
  | cons c cs ih =>
    rw [show hashFold ns1 f (c :: cs) =
        optAppend (hash_node_tree ns1 f c) (hashFold ns1 f cs) from rfl,
      show hashFold ns2 f (c :: cs) =
        optAppend (hash_node_tree ns2 f c) (hashFold ns2 f cs) from rfl,
      ihm c, ih]

theorem hash_node_tree_congr (ns1 ns2 : NodeMap)
    (h : ∀ k, getNode ns1 k = getNode ns2 k) :
    ∀ f id, hash_node_tree ns1 f id = hash_node_tree ns2 f id := by
  intro f
  induction f with
  | zero =>
    intro id
    rfl
  | succ f ih =>
    intro id
    rw [hash_node_tree_succ, hash_node_tree_succ, h id]
    cases getNode ns2 id with
    | none => rfl
    | some n =>
      show (hashFold ns1 f n.children).map (fun l => n.pattern_hash :: l) =
        (hashFold ns2 f n.children).map (fun l => n.pattern_hash :: l)
      rw [hashFold_congr ns1 ns2 f ih n.children]

/-- Claim C3: the fueled semantic hash is a pure function of the graph
(determinism is definitional in the embedding), it does not depend on
the storage order of the nodes table (only on the lookup function and
the root sequence), and it depends only on the hash-relevant data: the
root id sequence in order and, per resolvable root, the node id field,
the node language tag, and the pattern_hash sequence of the subtree
walk.  Both parts are proved for every fuel, hence in particular for
the sufficient fuels that exist on acyclic reachable subgraphs. -/
theorem c3_hash_dependence :
    (∀ g1 g2 : SemanticGraph, ∀ f,
      g1.root_nodes = g2.root_nodes →
      (∀ k, getNode g1.nodes k = getNode g2.nodes k) →
      calculate_semantic_hash g1 f = calculate_semantic_hash g2 f) ∧
    (∀ g1 g2 : SemanticGraph, ∀ f1 f2,
      hashRelevantData g1 f1 = hashRelevantData g2 f2 →
      calculate_semantic_hash g1 f1 = calculate_semantic_hash g2 f2) := by
  have key : ∀ g1 g2 : SemanticGraph, ∀ f1 f2,
      hashRelevantData g1 f1 = hashRelevantData g2 f2 →
      calculate_semantic_hash g1 f1 = calculate_semantic_hash g2 f2 := by
    intro g1 g2 f1 f2 h
    rw [calc_hash_eq, calc_hash_eq, rootsFold_encode, rootsFold_encode,
      show (g1.root_nodes.map fun r => (getNode g1.nodes r).map fun n =>
          (n.id, n.language, hash_node_tree g1.nodes f1 r)) =
        hashRelevantData g1 f1 from rfl,
      show (g2.root_nodes.map fun r => (getNode g2.nodes r).map fun n =>
          (n.id, n.language, hash_node_tree g2.nodes f2 r)) =
        hashRelevantData g2 f2 from rfl,
      h]
  refine ⟨?_, key⟩
  intro g1 g2 f hroots hget
  apply key
  unfold hashRelevantData
  rw [hroots]
  apply List.map_congr_left
  intro r _
  rw [hget r, hash_node_tree_congr g1.nodes g2.nodes hget f r]

/-- Witness for claim C3: the same two-node graph stored in the two
possible table orders has equal hash-relevant data and equal semantic
hash. -/
theorem c3_hash_dependence_witness :
    hashRelevantData gOrderA 3 = hashRelevantData gOrderB 3 ∧
    calculate_semantic_hash gOrderA 3 = calculate_semantic_hash gOrderB 3 :=
  ⟨by decide, c3_hash_dependence.2 gOrderA gOrderB 3 3 (by decide)⟩

/-- Claim C4: on every graph whose children graph reachable from the
roots is acyclic (rank certificate), some fuel makes the fueled
calculate_semantic_hash complete (dangling child ids are skipped as
leaves); and the subtree walk has no cycle guard, so whenever a cycle
is reachable from a declared root, the walk exhausts every fuel — the
source recursion does not terminate. -/
theorem c4_hash_termination :
    (∀ g : SemanticGraph, AcyclicFromRoots g →
      ∃ f, (calculate_semantic_hash g f).isSome) ∧
    (∀ g : SemanticGraph, ∀ r, r ∈ g.root_nodes →
      (∃ y, Reach g.nodes r y ∧ CycleAt g.nodes y) →
      ∀ f, calculate_semantic_hash g f = none) :=
  ⟨fun g h => acyclic_calc_isSome g h,
   fun g r hr hcy f => cycle_calc_none g r hr hcy f⟩

/-- Witness for claim C4: the acyclic chain gOrderA admits a completing
fuel, while the rooted self-loop gSelfLoop exhausts fuel 5 (and, by the
theorem, every fuel). -/
theorem c4_hash_termination_witness :
    AcyclicFromRoots gOrderA ∧
    (∃ f, (calculate_semantic_hash gOrderA f).isSome) ∧
    (1 ∈ gSelfLoop.root_nodes ∧
      (∃ y, Reach gSelfLoop.nodes 1 y ∧ CycleAt gSelfLoop.nodes y)) ∧
    calculate_semantic_hash gSelfLoop 5 = none := by
  have hacyc : AcyclicFromRoots gOrderA := by
    refine ⟨fun i => 2 - i, ?_⟩
    intro i hreach n hn c hc
    obtain ⟨r, hr, hre⟩ := hreach
    have hr2 : r = 1 ∨ r = 2 := by
      have hm : r ∈ ([1, 2] : List Nat) := hr
      simpa using hm
    have hi : i = 1 ∨ i = 2 := by
      rcases hr2 with rfl | rfl
      · have hm := reach_mem_preorder gOrderA.nodes 3 1 [1, 2] (by decide) i hre
        simpa using hm
      · have hm := reach_mem_preorder gOrderA.nodes 2 2 [2] (by decide) i hre
        simp at hm
        exact Or.inr hm
    rcases hi with rfl | rfl
    · have hfact : getNode gOrderA.nodes 1 =
          some (mkNode 1 .Function [2] [] "rust" 21) := by decide
      rw [hfact] at hn
      obtain rfl := Option.some.inj hn
      fin_cases hc
      decide
    · have hfact : getNode gOrderA.nodes 2 =
          some (mkNode 2 .Variable [] [] "rust" 22) := by decide
      rw [hfact] at hn
      obtain rfl := Option.some.inj hn
      cases hc
  have hcyc : ∃ y, Reach gSelfLoop.nodes 1 y ∧ CycleAt gSelfLoop.nodes y :=
    ⟨1, Reach.refl 1, mkNode 1 .Variable [1] [] "rust" 7, 1,
      by decide, by decide, Reach.refl 1⟩
  exact ⟨hacyc, c4_hash_termination.1 gOrderA hacyc,
    ⟨by decide, hcyc⟩, c4_hash_termination.2 gSelfLoop 1 (by decide) hcyc 5⟩

theorem sortMeta_perm_eq (l1 l2 : List (String × String)) (hp : l1.Perm l2)
    (hnd : (l1.map Prod.fst).Nodup) : sortMeta l1 = sortMeta l2 := by
  have hperm : (sortMeta l1).Perm (sortMeta l2) :=
    (List.perm_insertionSort metaLE l1).trans
      (hp.trans (List.perm_insertionSort metaLE l2).symm)
  have hs1 : List.Sorted metaLE (sortMeta l1) := List.sorted_insertionSort metaLE l1
  have hs2 : List.Sorted metaLE (sortMeta l2) := List.sorted_insertionSort metaLE l2
  have hnd1 : ((sortMeta l1).map Prod.fst).Nodup :=
    (((List.perm_insertionSort metaLE l1).map Prod.fst).nodup_iff).mpr hnd
  have hnd2 : ((sortMeta l2).map Prod.fst).Nodup :=
    (((List.perm_insertionSort metaLE l2).map Prod.fst).nodup_iff).mpr
      ((hp.map Prod.fst).nodup_iff.mp hnd)
  have hne1 : List.Pairwise (fun a b : String × String => a.1 ≠ b.1) (sortMeta l1) :=
    List.pairwise_map.mp hnd1
  have hne2 : List.Pairwise (fun a b : String × String => a.1 ≠ b.1) (sortMeta l2) :=
    List.pairwise_map.mp hnd2
  have hst1 : List.Pairwise (fun a b : String × String => a.1 < b.1) (sortMeta l1) :=
    (hs1.and hne1).imp fun hx => lt_of_le_of_ne hx.1 hx.2
  have hst2 : List.Pairwise (fun a b : String × String => a.1 < b.1) (sortMeta l2) :=
    (hs2.and hne2).imp fun hx => lt_of_le_of_ne hx.1 hx.2
  haveI : IsAntisymm (String × String) (fun a b => a.1 < b.1) :=
    ⟨fun _ _ h1 h2 => ((lt_asymm h1) h2).elim⟩
  exact List.eq_of_perm_of_sorted hperm hst1 hst2

/-- Claim C10: the token stream fed to the hasher by the manual Hash
impl of SemanticNode depends on the metadata only through the entries
sorted by key: two nodes with equal id, node_type, children, language
and pattern_hash whose metadata hold the same entries in different
insertion orders (keys pairwise distinct, as in a HashMap) have equal
hash contributions. -/
theorem c10_node_hash_metadata_order (n1 n2 : SemanticNode)
    (hid : n1.id = n2.id) (ht : n1.node_type = n2.node_type)
    (hch : n1.children = n2.children) (hlang : n1.language = n2.language)
    (hph : n1.pattern_hash = n2.pattern_hash)
    (hperm : n1.metadata.Perm n2.metadata)
    (hkeys : (n1.metadata.map Prod.fst).Nodup) :
    nodeHashTrace n1 = nodeHashTrace n2 := by
  unfold nodeHashTrace
  rw [hid, ht, hch, hlang, hph,
    sortMeta_perm_eq n1.metadata n2.metadata hperm hkeys]

/-- Witness for claim C10: two concrete nodes whose two metadata
entries are stored in opposite orders give the same token stream. -/
theorem c10_node_hash_metadata_order_witness :
    nMetaA.metadata.Perm nMetaB.metadata ∧
    (nMetaA.metadata.map Prod.fst).Nodup ∧
    nodeHashTrace nMetaA = nodeHashTrace nMetaB := by
  refine ⟨by decide, by decide, ?_⟩
  exact c10_node_hash_metadata_order nMetaA nMetaB rfl rfl rfl rfl rfl
    (by decide) (by decide)

theorem lookupCache_of_ne_nil {cache : List (Nat × List Nat)} {c : Nat}
    (h : bucket cache c ≠ []) :
    lookupCache cache c = some (bucket cache c) := by
  unfold bucket at h ⊢
  cases hl : lookupCache cache c with
  | none =>
    rw [hl] at h
    exact absurd rfl h
  | some l => rfl

theorem mem_of_lookupCache {cache : List (Nat × List Nat)} {c : Nat}
    {ids : List Nat} (h : lookupCache cache c = some ids) : (c, ids) ∈ cache := by
  unfold lookupCache at h
  cases hf : cache.find? (fun p => p.1 == c) with
  | none =>
    rw [hf] at h
    cases h
  | some pr =>
    rw [hf] at h
    obtain ⟨k, l⟩ := pr
    have hp := List.find?_some hf
    have hmem := List.mem_of_find?_eq_some hf
    have h1 : k = c := by simpa using hp
    have h2 : l = ids := by simpa using h
    subst h1
    subst h2
    exact hmem

theorem recognizeEntry_eval (r : PatternRecognizer) (g2 : SemanticGraph) (f : Nat)
    (e : Nat × List Nat) (supported : List PatternType)
    (hsup : lookupPatterns r g2.language = some supported)
    (hin : hash_to_pattern e.1 ∈ supported) :
    recognizeEntry r g2 f e =
      [{ pattern_type := hash_to_pattern e.1, language := g2.language,
         node_count := e.2.length,
         semantic_hash := calculate_semantic_hash g2 f }] := by
  unfold recognizeEntry
  rw [hsup]
  show (if hash_to_pattern e.1 ∈ supported then
      [{ pattern_type := hash_to_pattern e.1, language := g2.language,
         node_count := e.2.length,
         semantic_hash := calculate_semantic_hash g2 f }]
    else ([] : List CrossLanguagePattern)) =
    [{ pattern_type := hash_to_pattern e.1, language := g2.language,
       node_count := e.2.length,
       semantic_hash := calculate_semantic_hash g2 f }]
  rw [if_pos hin]

/-- Claim C7: the numeric code detect_patterns stores (the PatternType
discriminant, FibonacciLike 0 through DatabaseQuery 8) disagrees with
the mod-7 decoding order of the recognizer: the Builder code decodes to
IteratorChain, the IteratorChain code to Builder, the Cacheable code to
WebEndpoint, and the WebEndpoint code 7 to FibonacciLike; consequently,
on every rust graph with a node pre-tagged Pattern Builder (keys
pairwise distinct), after detection the Builder-code bucket exists,
holds that node id, and recognize_cross_language_patterns turns exactly
that bucket into a match record with pattern_type IteratorChain — not
Builder — which occurs in the recognizer output. -/
theorem c7_pattern_code_mismatch :
    (patternCode .FibonacciLike = 0 ∧ patternCode .MapReduce = 1 ∧
     patternCode .Builder = 2 ∧ patternCode .IteratorChain = 3 ∧
     patternCode .RecursiveTree = 4 ∧ patternCode .Cacheable = 5 ∧
     patternCode .DataProcessor = 6 ∧ patternCode .WebEndpoint = 7 ∧
     patternCode .DatabaseQuery = 8) ∧
    (hash_to_pattern (patternCode .Builder) = .IteratorChain ∧
     hash_to_pattern (patternCode .IteratorChain) = .Builder ∧
     hash_to_pattern (patternCode .Cacheable) = .WebEndpoint ∧
     hash_to_pattern (patternCode .WebEndpoint) = .FibonacciLike) ∧
    (∀ g : SemanticGraph, ∀ id n f, keysNodup g → g.language = "rust" →
      getNode g.nodes id = some n → n.node_type = .Pattern .Builder →
      ∃ ids,
        lookupCache (detect_patterns g).pattern_cache (patternCode .Builder) =
          some ids ∧
        id ∈ ids ∧
        recognizeEntry PatternRecognizer.new (detect_patterns g) f
            (patternCode .Builder, ids) =
          [⟨.IteratorChain, "rust", ids.length,
            calculate_semantic_hash (detect_patterns g) f⟩] ∧
        (⟨.IteratorChain, "rust", ids.length,
          calculate_semantic_hash (detect_patterns g) f⟩ : CrossLanguagePattern) ∈
          recognize_cross_language_patterns PatternRecognizer.new f
            [detect_patterns g]) := by
  refine ⟨by decide, by decide, ?_⟩
  intro g id n f hnd hlang hid htype
  have ha : analyze_node_pattern g.nodes n = some .Builder := by
    simp [analyze_node_pattern, htype]
  have hcount := bucketCount_detect_of_class g hnd hid ha (patternCode .Builder)
  rw [if_pos rfl] at hcount
  have hpos : 0 < List.count id
      (bucket (detect_patterns g).pattern_cache (patternCode .Builder)) := by
    unfold bucketCount at hcount
    omega
  have hmem : id ∈ bucket (detect_patterns g).pattern_cache (patternCode .Builder) :=
    List.count_pos_iff.mp hpos
  have hne : bucket (detect_patterns g).pattern_cache (patternCode .Builder) ≠ [] := by
    intro h0
    rw [h0] at hmem
    cases hmem
  have hlook := lookupCache_of_ne_nil hne
  have hlang2 : (detect_patterns g).language = "rust" := by
    rw [show (detect_patterns g).language = g.language from rfl, hlang]
  have hentry : recognizeEntry PatternRecognizer.new (detect_patterns g) f
      (patternCode .Builder,
        bucket (detect_patterns g).pattern_cache (patternCode .Builder)) =
      [⟨.IteratorChain, "rust",
        (bucket (detect_patterns g).pattern_cache (patternCode .Builder)).length,
        calculate_semantic_hash (detect_patterns g) f⟩] := by
    have h := recognizeEntry_eval PatternRecognizer.new (detect_patterns g) f
      (patternCode .Builder,
        bucket (detect_patterns g).pattern_cache (patternCode .Builder))
      [.IteratorChain, .Builder, .FibonacciLike]
      (by rw [hlang2]; decide)
      (show hash_to_pattern (patternCode PatternType.Builder) ∈
        [PatternType.IteratorChain, PatternType.Builder, PatternType.FibonacciLike]
        by decide)
    rw [hlang2] at h
    simpa [show hash_to_pattern (patternCode .Builder) = PatternType.IteratorChain
      from rfl] using h
  refine ⟨bucket (detect_patterns g).pattern_cache (patternCode .Builder),
    hlook, hmem, hentry, ?_⟩
  unfold recognize_cross_language_patterns
  rw [show ([detect_patterns g].flatMap fun g2 =>
      match lookupPatterns PatternRecognizer.new g2.language with
      | none => []
      | some _ => g2.pattern_cache.flatMap
          (recognizeEntry PatternRecognizer.new g2 f)) =
    (match lookupPatterns PatternRecognizer.new (detect_patterns g).language with
      | none => []
      | some _ => (detect_patterns g).pattern_cache.flatMap
          (recognizeEntry PatternRecognizer.new (detect_patterns g) f)) ++ []
    from rfl, List.append_nil, hlang2]
  rw [show lookupPatterns PatternRecognizer.new "rust" =
    some [.IteratorChain, .Builder, .FibonacciLike] from rfl]
  apply List.mem_flatMap.mpr
  refine ⟨(patternCode .Builder,
    bucket (detect_patterns g).pattern_cache (patternCode .Builder)),
    mem_of_lookupCache hlook, ?_⟩
  rw [hentry]
  exact List.mem_singleton_self _

/-- Witness for claim C7 at the concrete one-node rust graph whose node
is pre-tagged Pattern Builder. -/
theorem c7_pattern_code_mismatch_witness :
    keysNodup gBuilder ∧ gBuilder.language = "rust" ∧
    getNode gBuilder.nodes 1 = some (mkNode 1 (.Pattern .Builder) [] [] "rust" 1) ∧
    ∃ ids,
      lookupCache (detect_patterns gBuilder).pattern_cache (patternCode .Builder) =
        some ids ∧
      1 ∈ ids ∧
      recognizeEntry PatternRecognizer.new (detect_patterns gBuilder) 4
          (patternCode .Builder, ids) =
        [⟨.IteratorChain, "rust", ids.length,
          calculate_semantic_hash (detect_patterns gBuilder) 4⟩] ∧
      (⟨.IteratorChain, "rust", ids.length,
        calculate_semantic_hash (detect_patterns gBuilder) 4⟩ :
          CrossLanguagePattern) ∈
        recognize_cross_language_patterns PatternRecognizer.new 4
          [detect_patterns gBuilder] := by
  refine ⟨by decide, rfl, by decide, ?_⟩
  exact c7_pattern_code_mismatch.2.2 gBuilder 1
    (mkNode 1 (.Pattern .Builder) [] [] "rust" 1) 4 (by decide) rfl (by decide) rfl
